import Mathlib

/-!
Verification of the measurable-transform rewriting subsystem of a
probabilistic-programming library: the order-statistic density rules and
recognizers of `pymc/logprob/order.py`, the measurability reachability
check of `pymc/logprob/utils.py`, and the invertible-transform algebra of
`pymc3/distributions/transforms.py`, shallowly embedded in Lean.
-/

/-! ## Log-space values with IEEE-like infinities

The discrete order-statistic rules manipulate log-probabilities that can be
`-inf` (probability zero), and the source guards explicitly against the
`NaN` that would arise from subtracting two `-inf` values.  `LogVal` models
a log-space scalar with the IEEE special values needed to state that. -/

inductive LogVal where
  | ninf
  | pinf
  | nan
  | fin (x : ℝ)

/-- IEEE-like negation: swaps the infinities, preserves `nan`. -/
def LogVal.neg : LogVal → LogVal
  | .ninf => .pinf
  | .pinf => .ninf
  | .nan => .nan
  | .fin x => .fin (-x)

/-- IEEE-like addition: `-inf + +inf = nan`, `nan` is absorbing. -/
def LogVal.add : LogVal → LogVal → LogVal
  | .fin a, .fin b => .fin (a + b)
  | .fin _, .ninf => .ninf
  | .fin _, .pinf => .pinf
  | .ninf, .fin _ => .ninf
  | .ninf, .ninf => .ninf
  | .ninf, .pinf => .nan
  | .pinf, .fin _ => .pinf
  | .pinf, .pinf => .pinf
  | .pinf, .ninf => .nan
  | .nan, _ => .nan
  | _, .nan => .nan

/-- IEEE-like subtraction; in particular `(-inf) - (-inf) = nan`. -/
def LogVal.sub (a b : LogVal) : LogVal := a.add b.neg

/-- Multiplication by a natural constant (the statically folded draw count
`n`); IEEE gives `0 * (+-inf) = nan`. -/
def LogVal.natMul (n : ℕ) : LogVal → LogVal
  | .nan => .nan
  | .fin x => .fin ((n : ℝ) * x)
  | .ninf => if n = 0 then .nan else .ninf
  | .pinf => if n = 0 then .nan else .pinf

/-- Modelled from the spec: the numerically stable `log(1 - exp(x))`
primitive (`pt.log1mexp` / the helper used by `pymc.math.logdiffexp`),
whose implementation is not part of the source snapshot.  In exact
arithmetic it is `log (1 - exp x)` for `x < 0`, `-inf` at `x = 0` (log of
zero), and `nan` for `x > 0` (log of a negative number). -/
noncomputable def LogVal.log1mexp : LogVal → LogVal
  | .nan => .nan
  | .ninf => .fin 0
  | .pinf => .nan
  | .fin x =>
      if x < 0 then .fin (Real.log (1 - Real.exp x))
      else if x = 0 then .ninf
      else .nan

/-- Modelled from the spec: the numerically stable log-difference-of-
exponentials primitive (`pymc.math.logdiffexp`, not in the source
snapshot): `logdiffexp a b = log (exp a - exp b)` computed as
`a + log1mexp (b - a)`. -/
noncomputable def LogVal.logdiffexp (a b : LogVal) : LogVal :=
  a.add (LogVal.log1mexp (b.sub a))

/-! ## Order-statistic density rules (`pymc/logprob/order.py`)

The rules build symbolic log-density expressions from the external
`_logprob_helper` / `_logcdf_helper` services applied to the base random
variable, and the draw count `n` obtained by `constant_fold` of the base
variable's size.  The embedding abstracts the two services as function
parameters (`logprob_helper`, `logcdf_helper`) and the folded size as `n`. -/

/-- `max_logprob` (continuous max): the source computes
`(n - 1) * logcdf + logprob + pt.math.log(n)` with `logprob`/`logcdf` the
base density and CDF at the observed value. -/
noncomputable def max_logprob (logprob_helper logcdf_helper : ℝ → ℝ) (n : ℕ)
    (value : ℝ) : ℝ :=
  ((n : ℝ) - 1) * logcdf_helper value + logprob_helper value + Real.log n

/-- `max_logprob_discrete` (discrete max): the source computes
`logdiffexp (n * logcdf value) (n * logcdf (value - 1))` where `logcdf` is
the base log-CDF; log-CDF values live in `LogVal` since they may be
`-inf`. -/
noncomputable def max_logprob_discrete (logcdf_helper : ℝ → LogVal) (n : ℕ)
    (value : ℝ) : LogVal :=
  LogVal.logdiffexp (LogVal.natMul n (logcdf_helper value))
    (LogVal.natMul n (logcdf_helper (value - 1)))

/-- `max_neg_logprob` (continuous min, via max of the negated variable):
the source computes
`(n - 1) * log (1 - exp logcdf) + logprob + log n` with both helpers
evaluated at the negated observed value. -/
noncomputable def max_neg_logprob (logprob_helper logcdf_helper : ℝ → ℝ)
    (n : ℕ) (value : ℝ) : ℝ :=
  ((n : ℝ) - 1) * Real.log (1 - Real.exp (logcdf_helper (-value))) +
    logprob_helper (-value) + Real.log n

/-- The float comparison `pt.eq(x, -pt.inf)`: true exactly on `-inf` (a
`nan` compares unequal to everything, as in IEEE). -/
def LogVal.isNinf : LogVal → Bool
  | .ninf => true
  | _ => false

/-- `discrete_max_neg_logprob` (discrete min): survival-based analogue.
The source computes `logcdf = log1mexp(logcdf_helper(-value))` and
`logcdf_prev = log1mexp(logcdf_helper(-(value + 1)))` and returns `-inf`
when both are `-inf`, else `logdiffexp (n * logcdf_prev) (n * logcdf)`. -/
noncomputable def discrete_max_neg_logprob (logcdf_helper : ℝ → LogVal)
    (n : ℕ) (value : ℝ) : LogVal :=
  let logcdf := LogVal.log1mexp (logcdf_helper (-value))
  let logcdf_prev := LogVal.log1mexp (logcdf_helper (-(value + 1)))
  if logcdf.isNinf && logcdf_prev.isNinf then LogVal.ninf
  else LogVal.logdiffexp (LogVal.natMul n logcdf_prev) (LogVal.natMul n logcdf)

/-! Concrete base distributions for the spec's scenarios.  The primitive
distributions are external collaborators of the core (consumed through the
abstract `logprob_of` / `logcdf_of` services), so the two scenario bases
are modelled mathematically. -/

/-- Modelled from the spec: log-density of the standard uniform(0,1) base
distribution of the continuous-max scenario. -/
noncomputable def uniform01_logpdf (x : ℝ) : ℝ :=
  Real.log (if 0 ≤ x ∧ x ≤ 1 then 1 else 0)

/-- Modelled from the spec: log-CDF of the standard uniform(0,1) base
distribution of the continuous-max scenario. -/
noncomputable def uniform01_logcdf (x : ℝ) : ℝ :=
  Real.log (min 1 (max 0 x))

/-- Modelled from the spec: CDF of the discrete uniform distribution over
`{0,...,4}` (5 outcomes of probability 0.2 each) of the discrete-max
scenario. -/
noncomputable def dus5_cdf (x : ℝ) : ℝ :=
  if x < 0 then 0
  else if x < 1 then 0.2
  else if x < 2 then 0.4
  else if x < 3 then 0.6
  else if x < 4 then 0.8
  else 1

/-- Modelled from the spec: log-CDF of the discrete uniform over
`{0,...,4}`, as a `LogVal` (the log-CDF is finite on the support). -/
noncomputable def dus5_logcdf (x : ℝ) : LogVal :=
  LogVal.fin (Real.log (dus5_cdf x))

/-! ## Graph model for `check_potential_measurability` (`pymc/logprob/utils.py`)

A graph variable either has no owner (a leaf: free variable or constant) or
is the output of an apply node.  For the reachability check, all that
matters about an owner is whether its op is registered as a
`MeasurableVariable` and what its inputs are, so a variable is modelled as
a rose tree (the traversal's visited-set only de-duplicates shared
sub-graphs and cannot change reachability, so the tree unfolding of the DAG
is a faithful model of the walk's result). -/

inductive Var where
  | leaf (id : ℕ)
  | node (id : ℕ) (measurable : Bool) (inputs : List Var)

mutual

def Var.decEq : (a b : Var) → Decidable (a = b)
  | .leaf i, .leaf j =>
      if h : i = j then .isTrue (by rw [h])
      else .isFalse (fun hc => by cases hc; exact h rfl)
  | .leaf _, .node _ _ _ => .isFalse (fun hc => by cases hc)
  | .node _ _ _, .leaf _ => .isFalse (fun hc => by cases hc)
  | .node i m ins, .node j m' ins' =>
      if h : i = j then
        if hm : m = m' then
          match Var.decEqList ins ins' with
          | .isTrue hl => .isTrue (by rw [h, hm, hl])
          | .isFalse hl => .isFalse (fun hc => by cases hc; exact hl rfl)
        else .isFalse (fun hc => by cases hc; exact hm rfl)
      else .isFalse (fun hc => by cases hc; exact h rfl)

def Var.decEqList : (as bs : List Var) → Decidable (as = bs)
  | [], [] => .isTrue rfl
  | [], _ :: _ => .isFalse (fun hc => by cases hc)
  | _ :: _, [] => .isFalse (fun hc => by cases hc)
  | a :: as, b :: bs =>
      match Var.decEq a b with
      | .isTrue h =>
        match Var.decEqList as bs with
        | .isTrue hl => .isTrue (by rw [h, hl])
        | .isFalse hl => .isFalse (fun hc => by cases hc; exact hl rfl)
      | .isFalse h => .isFalse (fun hc => by cases hc; exact h rfl)

end

instance : DecidableEq Var := Var.decEq

/-- `var.owner and isinstance(var.owner.op, MeasurableVariable)`: true when
the variable has an owner whose op is a measurable marker or raw draw. -/
def Var.measurableOwner : Var → Bool
  | .leaf _ => false
  | .node _ m _ => m

/-! The DFS of `walk(inputs, expand=expand_fn, bfs=False)` filtered by the
measurability condition, denotationally: a walked variable satisfies the
`any` filter when it has a measurable owner and is not valued
(`ancestor_var.owner and isinstance(ancestor_var.owner.op,
MeasurableVariable) and ancestor_var not in valued_rvs`), and `expand_fn`
only expands a variable that has an owner, is not measurable and is not
valued.  The traversal order (reversed inputs, depth-first) cannot affect
the existence result, so it is not tracked. -/
mutual

def cpm_walk (valued : List Var) : Var → Bool
  | .leaf _ => false
  | .node i m ins =>
      (m && !(decide (Var.node i m ins ∈ valued))) ||
      (!m && !(decide (Var.node i m ins ∈ valued)) && cpm_walkList valued ins)

def cpm_walkList (valued : List Var) : List Var → Bool
  | [] => false
  | v :: vs => cpm_walk valued v || cpm_walkList valued vs

end

/-- `check_potential_measurability(inputs, valued_rvs)`. -/
def check_potential_measurability (inputs : List Var) (valued : List Var) :
    Bool :=
  cpm_walkList valued inputs

/-- The spec-side reachability relation: a backward traversal step is only
allowed through a node that is neither measurable nor valued (those act as
opaque barriers); the start node itself is always "reached". -/
inductive ReachesThroughUnvalued (valued : List Var) : Var → Var → Prop
  | refl (v : Var) : ReachesThroughUnvalued valued v v
  | step (i : ℕ) (ins : List Var) (w t : Var) :
      Var.node i false ins ∉ valued →
      w ∈ ins →
      ReachesThroughUnvalued valued w t →
      ReachesThroughUnvalued valued (Var.node i false ins) t

/-! ## IR model for the order-statistic recognizers (`pymc/logprob/order.py`)

Enough of the tensor IR to express `find_measurable_max` and
`find_measurable_max_neg`: an op is a random draw (with its support
dimensionality and dtype class), one of the `Max` family (each carrying its
reduction axis list), the elementwise multiplication used by negation
patterns, the constant `-1`, or anything else.  A variable carries its
number of dimensions and optionally the apply node that produced it. -/

inductive TOp where
  | randomVariable (ndim_supp : ℕ) (intDtype : Bool)
  | maxOp (axis : List ℕ)
  | measurableMax (axis : List ℕ)
  | measurableMaxDiscrete (axis : List ℕ)
  | measurableMaxNeg (axis : List ℕ)
  | measurableDiscreteMaxNeg (axis : List ℕ)
  | elemwiseMul
  | constNegOne
  | otherOp

inductive TVar where
  | mk (ndim : ℕ) (owner : Option (TOp × List TVar))

def TVar.ndim : TVar → ℕ
  | .mk n _ => n

def TVar.owner : TVar → Option (TOp × List TVar)
  | .mk _ o => o

/-- The reduction axis list of any op of the `Max` family (`node.op.axis`);
`none` for ops the `node_rewriter(tracks=[Max])` dispatch never fires on. -/
def TOp.maxAxis : TOp → Option (List ℕ)
  | .maxOp a => some a
  | .measurableMax a => some a
  | .measurableMaxDiscrete a => some a
  | .measurableMaxNeg a => some a
  | .measurableDiscreteMaxNeg a => some a
  | _ => none

/-- `isinstance(node.op, MeasurableMax)` (only the continuous marker class;
`MeasurableMaxDiscrete` subclasses `Max` directly, not `MeasurableMax`). -/
def TOp.isMeasurableMax : TOp → Bool
  | .measurableMax _ => true
  | _ => false

/-- `isinstance(node.op, MeasurableMaxNeg)`. -/
def TOp.isMeasurableMaxNeg : TOp → Bool
  | .measurableMaxNeg _ => true
  | _ => false

/-- `isinstance(base_var.owner.op, Elemwise)`. -/
def TOp.isElemwise : TOp → Bool
  | .elemwiseMul => true
  | _ => false

/-- The op is a `RandomVariable` with scalar support
(`isinstance(base_var.owner.op, RandomVariable) and
base_var.owner.op.ndim_supp == 0`). -/
def TOp.isScalarRV : TOp → Bool
  | .randomVariable 0 _ => true
  | _ => false

/-- `base_var.owner.op.dtype.startswith("int")`. -/
def TOp.hasIntDtype : TOp → Bool
  | .randomVariable _ b => b
  | _ => false

/-- The variable is the constant `-1`. -/
def TVar.isConstNegOne (v : TVar) : Bool :=
  match v.owner with
  | some (.constNegOne, _) => true
  | _ => false

/-- Modelled from the spec: `find_negated_var` (imported from
`pymc.logprob.utils` but absent from the source snapshot) recognizes an
elementwise multiply-by-negative-one pattern and returns the un-negated
operand. -/
def find_negated_var (v : TVar) : Option TVar :=
  match v.owner with
  | some (.elemwiseMul, [a, b]) =>
      if a.isConstNegOne then some b
      else if b.isConstNegOne then some a
      else none
  | _ => none

/-- The distribution parameters of a random draw are
`base_var.owner.inputs[3:]` (after rng, size and dtype); the i.i.d. check
requires each to have rank 0. -/
def paramsAllScalar (ownerInputs : List TVar) : Bool :=
  (ownerInputs.drop 3).all (fun p => p.ndim == 0)

/-- `set(node.op.axis) == set(range(base_var.ndim))`. -/
def axisCoversDims (axis : List ℕ) (ndim : ℕ) : Bool :=
  decide (axis.toFinset = (List.range ndim).toFinset)

/-- `find_measurable_max`.  The rewriter context is abstracted as: whether
the `preserve_rv_mappings` feature is present, and the feature's
`request_measurable` arbitration as a function on input lists.  The result
`none` is the rewriter's "no replacement found".  `list(set(axis))` is
modelled as `axis.dedup`. -/
def find_measurable_max (hasFeature : Bool)
    (request_measurable : List TVar → Bool) (op : TOp)
    (inputs : List TVar) : Option (List TVar) :=
  if !hasFeature then none
  else if op.isMeasurableMax then none
  else
    match op.maxAxis with
    | none => none
    | some axis =>
      match inputs with
      | [base_var] =>
        match base_var.owner with
        | none => none
        | some (ownerOp, _ownerInputs) =>
          if !request_measurable inputs then none
          else if !ownerOp.isScalarRV then none
          else if !paramsAllScalar _ownerInputs then none
          else if !axisCoversDims axis base_var.ndim then none
          else
            let mop :=
              if ownerOp.hasIntDtype then TOp.measurableMaxDiscrete axis.dedup
              else TOp.measurableMax axis.dedup
            some [TVar.mk 0 (some (mop, [base_var]))]
      | _ => none

/-- `find_measurable_max_neg`.  Same context abstraction; note the source
checks the axis before calling `request_measurable([base_rv])`, and that
`request_measurable` receives the un-negated `base_rv`.  A `base_rv`
without owner would raise `AttributeError` in the source
(`base_rv.owner.op`); that path is modelled as `none` and is outside the
claims. -/
def find_measurable_max_neg (hasFeature : Bool)
    (request_measurable : List TVar → Bool) (op : TOp)
    (inputs : List TVar) : Option (List TVar) :=
  if !hasFeature then none
  else if op.isMeasurableMaxNeg then none
  else
    match op.maxAxis with
    | none => none
    | some axis =>
      match inputs with
      | [base_var] =>
        match base_var.owner with
        | none => none
        | some (ownerOp, _) =>
          if !ownerOp.isElemwise then none
          else
            match find_negated_var base_var with
            | none => none
            | some base_rv =>
              match base_rv.owner with
              | none => none
              | some (rvOp, rvInputs) =>
                if !rvOp.isScalarRV then none
                else if !paramsAllScalar rvInputs then none
                else if !axisCoversDims axis base_var.ndim then none
                else if !request_measurable [base_rv] then none
                else
                  let mop :=
                    if rvOp.hasIntDtype then
                      TOp.measurableDiscreteMaxNeg axis.dedup
                    else TOp.measurableMaxNeg axis.dedup
                  some [TVar.mk 0 (some (mop, [base_rv]))]
      | _ => none

/-! ## Monotonic transform algebra (`pymc3/distributions/transforms.py`)

Transforms act on value tensors; the embedding uses rank-1 value tensors
(`List ℝ`), on which elementwise transforms act via `List.map` and the
simplex/ordered/packed transforms act natively.  The `rv_var` context
argument only feeds `param_extract_fn` (interval bounds, Cholesky diagonal
indices) and the static degeneracy flag `rv_var.broadcastable[-1]` of
`StickBreaking`; those are modelled as parameters of the corresponding
constructors. -/

/-- Modelled from the spec: `pymc3.math.logit` (not in the source
snapshot), the log-odds map `log (p / (1 - p))`. -/
noncomputable def logit (p : ℝ) : ℝ := Real.log (p / (1 - p))

/-- Modelled from the spec: `pymc3.math.invlogit(x, 0.0)` (not in the
source snapshot), the logistic sigmoid `1 / (1 + exp (-x))`. -/
noncomputable def invlogit (x : ℝ) : ℝ := 1 / (1 + Real.exp (-x))

/-- `aet.nnet.softplus`, `log (1 + exp x)`. -/
noncomputable def softplus (x : ℝ) : ℝ := Real.log (1 + Real.exp x)

/-- `aet.arctan2 y x`, the angle of the point `(x, y)`, in `(-π, π]`. -/
noncomputable def arctan2 (y x : ℝ) : ℝ := Complex.arg (x + y * Complex.I)

/-- Modelled from the spec: `pymc3.math.logsumexp` (not in the source
snapshot) over a rank-1 tensor; in exact arithmetic the max-shift cancels,
leaving `log (sum (exp x))`. -/
noncomputable def logsumexp (l : List ℝ) : ℝ := Real.log ((l.map Real.exp).sum)

/-- `Interval.forward`, elementwise, by presence of the two bounds. -/
noncomputable def intervalFwd (a b : Option ℝ) : ℝ → ℝ :=
  match a, b with
  | some a, some b => fun x => Real.log (x - a) - Real.log (b - x)
  | some a, none => fun x => Real.log (x - a)
  | none, some b => fun x => Real.log (b - x)
  | none, none => fun x => x

/-- `Interval.backward`, elementwise, by presence of the two bounds. -/
noncomputable def intervalBwd (a b : Option ℝ) : ℝ → ℝ :=
  match a, b with
  | some a, some b => fun y => invlogit y * b + (1 - invlogit y) * a
  | some a, none => fun y => Real.exp y + a
  | none, some b => fun y => b - Real.exp y
  | none, none => fun y => y

/-- `Ordered.forward` after the head: each entry is the log of the
difference with its predecessor (`y[..., 1:] = log (x[1:] - x[:-1])`). -/
noncomputable def orderedFwdAux (prev : ℝ) : List ℝ → List ℝ
  | [] => []
  | x :: xs => Real.log (x - prev) :: orderedFwdAux x xs

/-- `Ordered.forward`: head passed through, tail log-differenced. -/
noncomputable def orderedFwd : List ℝ → List ℝ
  | [] => []
  | x :: xs => x :: orderedFwdAux x xs

/-- `Ordered.backward` after the head: cumulative sum of exponentials. -/
noncomputable def orderedBwdAux (acc : ℝ) : List ℝ → List ℝ
  | [] => []
  | y :: ys => (acc + Real.exp y) :: orderedBwdAux (acc + Real.exp y) ys

/-- `Ordered.backward`: `cumsum` of the head followed by exponentials. -/
noncomputable def orderedBwd : List ℝ → List ℝ
  | [] => []
  | y :: ys => y :: orderedBwdAux y ys

/-- The maximum entry of a rank-1 tensor (`aet.max(y, 0)`); `0` for the
empty list, which the `StickBreaking.backward` concatenation never
produces. -/
def listMax : List ℝ → ℝ
  | [] => 0
  | a :: l => l.foldl max a

/-- The softmax computation in `StickBreaking.backward`:
`e_y = exp (y - max y); x = e_y / sum e_y`. -/
noncomputable def softmaxShift (w : List ℝ) : List ℝ :=
  let m := listMax w
  let e := w.map (fun t => Real.exp (t - m))
  e.map (fun t => t / e.sum)

/-- `StickBreaking.forward` (non-degenerate): centered log ratios with the
last coordinate dropped (`lx[:-1] - shift`). -/
noncomputable def stickFwd (x : List ℝ) : List ℝ :=
  let lx := x.map Real.log
  let shift := lx.sum / (x.length : ℝ)
  lx.dropLast.map (fun v => v - shift)

/-- `StickBreaking.backward` (non-degenerate): append the negated sum and
take the stabilized softmax. -/
noncomputable def stickBwd (y : List ℝ) : List ℝ :=
  softmaxShift (y ++ [-y.sum])

/-- `StickBreaking.jacobian_det` (non-degenerate), for a rank-1 value. -/
noncomputable def stickJD (y : List ℝ) : ℝ :=
  let Km1 : ℝ := (y.length : ℝ) + 1
  let sy := y.sum
  let r := y.map (fun v => v + sy) ++ [0]
  let sr := logsumexp r
  Real.log Km1 + Km1 * sy - Km1 * sr

/-- `advanced_set_subtensor1(v, f (v[idxs]), idxs)` for a rank-1 value:
apply `f` at the positions listed in `idxs` (counting from `start`). -/
noncomputable def applyAtFrom (idxs : List ℕ) (f : ℝ → ℝ) :
    ℕ → List ℝ → List ℝ
  | _, [] => []
  | i, a :: l => (if i ∈ idxs then f a else a) :: applyAtFrom idxs f (i + 1) l

/-- `v[idxs]` for a rank-1 value: the entries at the positions listed in
`idxs` (counting from `start`). -/
def selectAtFrom (idxs : List ℕ) : ℕ → List ℝ → List ℝ
  | _, [] => []
  | i, a :: l =>
      if i ∈ idxs then a :: selectAtFrom idxs (i + 1) l
      else selectAtFrom idxs (i + 1) l

/-- Positivity at the positions listed in `idxs`: the domain condition of
`CholeskyCovPacked.forward`. -/
def posAtFrom (idxs : List ℕ) : ℕ → List ℝ → Prop
  | _, [] => True
  | i, a :: l => (i ∈ idxs → 0 < a) ∧ posAtFrom idxs (i + 1) l

/-- The transform library: `Log`, `LogExpM1`, `LogOdds`, `Interval` (with
its extracted bounds), `Ordered`, `SumTo1`, `StickBreaking` (with the
degeneracy flag `rv_var.broadcastable[-1]`), `Circular`,
`CholeskyCovPacked` (with its extracted diagonal indices) and `Chain` over
an ordered list of transforms. -/
inductive Transform where
  | log
  | logExpM1
  | logOdds
  | interval (a b : Option ℝ)
  | ordered
  | sumTo1
  | stickBreaking (degenerate : Bool)
  | circular
  | choleskyCovPacked (diag_idxs : List ℕ)
  | chain (ts : List Transform)

mutual

noncomputable def Transform.forward : Transform → List ℝ → List ℝ
  | .log, x => x.map Real.log
  | .logExpM1, x => x.map (fun v => Real.log (1 - Real.exp (-v)) + v)
  | .logOdds, x => x.map logit
  | .interval a b, x => x.map (intervalFwd a b)
  | .ordered, x => orderedFwd x
  | .sumTo1, x => x.dropLast
  | .stickBreaking true, x => x
  | .stickBreaking false, x => stickFwd x
  | .circular, x => x
  | .choleskyCovPacked idxs, x => applyAtFrom idxs Real.log 0 x
  | .chain ts, x => Transform.forwardList ts x

noncomputable def Transform.forwardList : List Transform → List ℝ → List ℝ
  | [], x => x
  | t :: ts, x => Transform.forwardList ts (Transform.forward t x)

end

mutual

noncomputable def Transform.backward : Transform → List ℝ → List ℝ
  | .log, y => y.map Real.exp
  | .logExpM1, y => y.map softplus
  | .logOdds, y => y.map invlogit
  | .interval a b, y => y.map (intervalBwd a b)
  | .ordered, y => orderedBwd y
  | .sumTo1, y => y ++ [1 - y.sum]
  | .stickBreaking true, y => y
  | .stickBreaking false, y => stickBwd y
  | .circular, y => y.map (fun v => arctan2 (Real.sin v) (Real.cos v))
  | .choleskyCovPacked idxs, y => applyAtFrom idxs Real.exp 0 y
  | .chain ts, y => Transform.backwardList ts y

noncomputable def Transform.backwardList : List Transform → List ℝ → List ℝ
  | [], y => y
  | t :: ts, y => Transform.backward t (Transform.backwardList ts y)

end

/-- A Jacobian log-determinant term: rank 0 (already reduced) or rank 1
(elementwise, one term per coordinate). -/
inductive JD where
  | scalar (v : ℝ)
  | vec (v : List ℝ)

/-- `det_.ndim`. -/
def JD.ndim : JD → ℕ
  | .scalar _ => 0
  | .vec _ => 1

/-- Broadcasting addition of Jacobian terms (`det += det_`). -/
noncomputable def JD.add : JD → JD → JD
  | .scalar a, .scalar b => .scalar (a + b)
  | .scalar a, .vec w => .vec (w.map (fun b => a + b))
  | .vec v, .scalar b => .vec (v.map (fun a => a + b))
  | .vec v, .vec w => .vec (List.zipWith (fun a b => a + b) v w)

/-- `det_.sum(axis=-1) if det_.ndim > ndim0 else det_`. -/
noncomputable def JD.alignTo (ndim0 : ℕ) : JD → JD
  | .scalar a => .scalar a
  | .vec v => if ndim0 = 0 then .scalar v.sum else .vec v

mutual

noncomputable def Transform.jacobian_det : Transform → List ℝ → JD
  | .log, y => .vec y
  | .logExpM1, y => .vec (y.map (fun v => -softplus (-v)))
  | .logOdds, y =>
      .vec (y.map (fun v => Real.log (invlogit v * (1 - invlogit v))))
  | .interval (some a) (some b), y =>
      .vec (y.map (fun v => Real.log (b - a) - 2 * softplus (-v) - v))
  | .interval (some _) none, y => .vec y
  | .interval none (some _), y => .vec y
  | .interval none none, y => .vec y
  | .ordered, y => .scalar (y.drop 1).sum
  | .sumTo1, y => .scalar (y.map (fun _ => (0 : ℝ))).sum
  | .stickBreaking true, y => .vec (y.map (fun _ => (1 : ℝ)))
  | .stickBreaking false, y => .scalar (stickJD y)
  | .circular, y => .vec (y.map (fun _ => (0 : ℝ)))
  | .choleskyCovPacked idxs, y => .scalar (selectAtFrom idxs 0 y).sum
  | .chain ts, y =>
      let dets := (Transform.chainDets ts y).1
      let ndim0 := dets.foldl (fun m d => min m (JD.ndim d)) 1
      dets.foldl (fun acc d => JD.add acc (JD.alignTo ndim0 d)) (.scalar 0)

/-- The loop of `Chain.jacobian_det`: iterate the reversed transform list,
collecting each child's `jacobian_det` at the input re-derived by the
`backward` calls so far; returns the collected terms in iteration order
together with the final re-derived value. -/
noncomputable def Transform.chainDets :
    List Transform → List ℝ → (List JD × List ℝ)
  | [], y => ([], y)
  | t :: ts, y =>
      let r := Transform.chainDets ts y
      (r.1 ++ [Transform.jacobian_det t r.2], Transform.backward t r.2)

end

/-! Domains and codomains of the transforms.  `dom t` is the set of values
of the constrained space on which `backward (forward x) = x`; `codom t` is
the unconstrained-space set on which `forward (backward y) = y`.  For every
transform except `Circular` the codomain places no pointwise constraint
(`Interval` with two bounds only needs the bounds ordered); `Circular`'s
backward map wraps into `(-π, π]`, so its round trip only holds there. -/

mutual

def Transform.dom : Transform → List ℝ → Prop
  | .log, x => ∀ a ∈ x, 0 < a
  | .logExpM1, x => ∀ a ∈ x, 0 < a
  | .logOdds, x => ∀ a ∈ x, 0 < a ∧ a < 1
  | .interval (some a) (some b), x => ∀ v ∈ x, a < v ∧ v < b
  | .interval (some a) none, x => ∀ v ∈ x, a < v
  | .interval none (some b), x => ∀ v ∈ x, v < b
  | .interval none none, _ => True
  | .ordered, x => x.Chain' (· < ·)
  | .sumTo1, x => x ≠ [] ∧ x.sum = 1
  | .stickBreaking true, _ => True
  | .stickBreaking false, x => x ≠ [] ∧ (∀ a ∈ x, 0 < a) ∧ x.sum = 1
  | .circular, x => ∀ a ∈ x, -Real.pi < a ∧ a ≤ Real.pi
  | .choleskyCovPacked idxs, x => posAtFrom idxs 0 x
  | .chain ts, x => Transform.domList ts x

def Transform.domList : List Transform → List ℝ → Prop
  | [], _ => True
  | t :: ts, x => Transform.dom t x ∧ Transform.domList ts (Transform.forward t x)

end

mutual

def Transform.codom : Transform → List ℝ → Prop
  | .interval (some a) (some b), _ => a < b
  | .circular, y => ∀ a ∈ y, -Real.pi < a ∧ a ≤ Real.pi
  | .chain ts, y => Transform.codomList ts y
  | _, _ => True

def Transform.codomList : List Transform → List ℝ → Prop
  | [], _ => True
  | t :: ts, y =>
      Transform.codomList ts y ∧
      Transform.codom t (Transform.backwardList ts y)

end

/-! The codomain as the round-trip claim reads it: every transform maps
onto the full unconstrained space it samples in, so no transform constrains
its codomain pointwise; this differs from `Transform.codom` only at
`Circular`. -/

mutual

def Transform.codomSpec : Transform → List ℝ → Prop
  | .interval (some a) (some b), _ => a < b
  | .chain ts, y => Transform.codomSpecList ts y
  | _, _ => True

def Transform.codomSpecList : List Transform → List ℝ → Prop
  | [], _ => True
  | t :: ts, y =>
      Transform.codomSpecList ts y ∧
      Transform.codomSpec t (Transform.backwardList ts y)

end

/-! Concrete graph variables used to exercise the recognizers: a scalar-
support univariate i.i.d. draw `wBaseRV` of rank 1 (with three non-
parameter inputs and one scalar parameter), its elementwise negation
`wNegX = (-1) * wBaseRV`, and the constant `-1`. -/

def wRng : TVar := TVar.mk 0 none

def wTheta : TVar := TVar.mk 0 none

def wBaseRV : TVar :=
  TVar.mk 1 (some (TOp.randomVariable 0 false, [wRng, wRng, wRng, wTheta]))

def wNegOne : TVar := TVar.mk 0 (some (TOp.constNegOne, []))

def wNegX : TVar := TVar.mk 1 (some (TOp.elemwiseMul, [wNegOne, wBaseRV]))

/-! ## Theorems: order-statistic density rules -/

theorem max_logprob_u01_eval :
    max_logprob uniform01_logpdf uniform01_logcdf 3 0.85 =
      Real.log 3 + 2 * Real.log 0.85 := by
  unfold max_logprob uniform01_logpdf uniform01_logcdf
  have h1 : min (1 : ℝ) (max 0 0.85) = 0.85 := by norm_num
  have h2 : ((0 : ℝ) ≤ 0.85 ∧ (0.85 : ℝ) ≤ 1) := by norm_num
  rw [h1, if_pos h2, Real.log_one]
  push_cast
  ring

theorem log_21675_gt : (0.7 : ℝ) < Real.log 2.1675 := by
  have hexp : Real.exp 0.175 ≤ 1 / 0.825 := by
    have h := Real.add_one_le_exp (-0.175 : ℝ)
    have h825 : (0.825 : ℝ) ≤ Real.exp (-0.175) := by linarith
    rw [Real.exp_neg] at h825
    have hpos : (0 : ℝ) < Real.exp 0.175 := Real.exp_pos _
    have hmul := mul_le_mul_of_nonneg_right h825 (le_of_lt hpos)
    rw [inv_mul_cancel₀ (ne_of_gt hpos)] at hmul
    linarith
  have hpow : Real.exp 0.7 = Real.exp 0.175 ^ (4 : ℕ) := by
    rw [← Real.exp_nat_mul]; norm_num
  have hlt : Real.exp 0.7 < 2.1675 := by
    rw [hpow]
    calc Real.exp 0.175 ^ (4 : ℕ) ≤ (1 / 0.825) ^ (4 : ℕ) := by
          exact pow_le_pow_left₀ (le_of_lt (Real.exp_pos _)) hexp 4
      _ < 2.1675 := by norm_num
  rw [show (0.7 : ℝ) = Real.log (Real.exp 0.7) by rw [Real.log_exp]]
  exact Real.log_lt_log (Real.exp_pos _) hlt

theorem log_21675_lt : Real.log 2.1675 < (0.8 : ℝ) := by
  have hexp : (1.05 : ℝ) ≤ Real.exp 0.05 := by
    have h := Real.add_one_le_exp (0.05 : ℝ)
    linarith
  have hpow : Real.exp 0.8 = Real.exp 0.05 ^ (16 : ℕ) := by
    rw [← Real.exp_nat_mul]; norm_num
  have hlt : (2.1675 : ℝ) < Real.exp 0.8 := by
    rw [hpow]
    calc (2.1675 : ℝ) < 1.05 ^ (16 : ℕ) := by norm_num
      _ ≤ Real.exp 0.05 ^ (16 : ℕ) := by
          exact pow_le_pow_left₀ (by norm_num) hexp 16
  rw [show (0.8 : ℝ) = Real.log (Real.exp 0.8) by rw [Real.log_exp]]
  exact Real.log_lt_log (by norm_num) hlt

theorem log3_add_two_log_085 :
    Real.log 3 + 2 * Real.log 0.85 = Real.log 2.1675 := by
  have h1 : (2 : ℝ) * Real.log 0.85 = Real.log (0.85 ^ (2 : ℕ)) := by
    rw [Real.log_pow]; push_cast; ring
  rw [h1, ← Real.log_mul (by norm_num) (by norm_num)]
  norm_num

/-- C1 (amended): for a `MeasurableMax` marker with statically foldable
size `n`, `max_logprob` returns `log n + (n - 1) * logF x + logf x`; for
the uniform(0,1) base with 3 i.i.d. draws at observed value 0.85 this is
`log 3 + 2 * log 0.85`, which lies strictly between 0.7 and 0.8 (about
0.7735, not 0.3315 as the claim stated). -/
theorem max_logprob_claim :
    (∀ (logf logF : ℝ → ℝ) (n : ℕ) (x : ℝ),
        max_logprob logf logF n x =
          Real.log n + ((n : ℝ) - 1) * logF x + logf x) ∧
    max_logprob uniform01_logpdf uniform01_logcdf 3 0.85 =
      Real.log 3 + 2 * Real.log 0.85 ∧
    0.7 < max_logprob uniform01_logpdf uniform01_logcdf 3 0.85 ∧
    max_logprob uniform01_logpdf uniform01_logcdf 3 0.85 < 0.8 := by
  refine ⟨fun logf logF n x => by unfold max_logprob; ring,
    max_logprob_u01_eval, ?_, ?_⟩
  · rw [max_logprob_u01_eval, log3_add_two_log_085]; exact log_21675_gt
  · rw [max_logprob_u01_eval, log3_add_two_log_085]; exact log_21675_lt

/-- C1 counterexample: at the claim's own concrete scenario the expression
is not approximately 0.3315 — it differs from 0.3315 by more than 0.1 (it
is in fact above 0.7). -/
theorem max_logprob_value_counterexample :
    (1 / 10 : ℝ) <
      |max_logprob uniform01_logpdf uniform01_logcdf 3 0.85 - 0.3315| := by
  rw [max_logprob_u01_eval, log3_add_two_log_085]
  have h := log_21675_gt
  rw [abs_of_pos (by linarith)]
  linarith

/-- C4: for a `MeasurableMaxNeg` marker (continuous min) with statically
foldable size `n`, `max_neg_logprob` returns
`log n + (n - 1) * log (1 - exp (logF (-x))) + logf (-x)`: both the base
log-density and base log-CDF are evaluated at the negated observed
value. -/
theorem max_neg_logprob_claim :
    ∀ (logf logF : ℝ → ℝ) (n : ℕ) (x : ℝ),
      max_neg_logprob logf logF n x =
        Real.log n + ((n : ℝ) - 1) * Real.log (1 - Real.exp (logF (-x))) +
          logf (-x) := by
  intro logf logF n x
  unfold max_neg_logprob
  ring

/-- C2: `max_logprob_discrete` applies the stable log-difference primitive
to `n * logF x` and `n * logF (x - 1)` (first conjunct, structural); on a
base CDF `F` with `0 < F (x-1) < F x` and `n ≥ 1` draws the result is
exactly `log (F x ^ n - F (x-1) ^ n)` (second conjunct); and a `-inf`
log-CDF input passes through the primitive without producing `NaN`: when
`logF (x-1) = -inf` and `logF x` is finite the result is the finite value
`n * logF x` (third conjunct). -/
theorem max_logprob_discrete_claim :
    (∀ (logF : ℝ → LogVal) (n : ℕ) (x : ℝ),
        max_logprob_discrete logF n x =
          LogVal.logdiffexp (LogVal.natMul n (logF x))
            (LogVal.natMul n (logF (x - 1)))) ∧
    (∀ (F : ℝ → ℝ) (n : ℕ) (x : ℝ), 0 < n → 0 < F (x - 1) → F (x - 1) < F x →
        max_logprob_discrete (fun y => LogVal.fin (Real.log (F y))) n x =
          LogVal.fin (Real.log (F x ^ n - F (x - 1) ^ n))) ∧
    (∀ (logF : ℝ → LogVal) (n : ℕ) (x : ℝ) (a : ℝ), 0 < n →
        logF x = LogVal.fin a → logF (x - 1) = LogVal.ninf →
        max_logprob_discrete logF n x = LogVal.fin ((n : ℝ) * a)) := by
  refine ⟨fun logF n x => rfl, ?_, ?_⟩
  · intro F n x hn hp hlt
    have hx : 0 < F x := lt_trans hp hlt
    unfold max_logprob_discrete
    simp only [LogVal.natMul]
    unfold LogVal.logdiffexp LogVal.sub
    simp only [LogVal.neg, LogVal.add]
    have hlog : Real.log (F (x - 1)) < Real.log (F x) := Real.log_lt_log hp hlt
    have hneg : (n : ℝ) * Real.log (F (x - 1)) + -((n : ℝ) * Real.log (F x)) < 0 := by
      have hn' : (0 : ℝ) < (n : ℝ) := by exact_mod_cast hn
      nlinarith
    rw [LogVal.log1mexp, if_pos hneg]
    simp only [LogVal.add]
    have hpow : F (x - 1) ^ n < F x ^ n :=
      pow_lt_pow_left₀ hlt (le_of_lt hp) hn.ne'
    have hppos : 0 < F (x - 1) ^ n := pow_pos hp n
    have hxpos : 0 < F x ^ n := pow_pos hx n
    have hexp : Real.exp ((n : ℝ) * Real.log (F (x - 1)) + -((n : ℝ) * Real.log (F x))) =
        F (x - 1) ^ n / F x ^ n := by
      rw [Real.exp_add, Real.exp_neg, Real.exp_nat_mul, Real.exp_nat_mul,
        Real.exp_log hp, Real.exp_log hx]
      rw [div_eq_mul_inv]
    rw [hexp]
    have h1 : (1 : ℝ) - F (x - 1) ^ n / F x ^ n = (F x ^ n - F (x - 1) ^ n) / F x ^ n := by
      field_simp
    rw [h1, Real.log_div (by linarith) (ne_of_gt hxpos)]
    have h2 : (n : ℝ) * Real.log (F x) = Real.log (F x ^ n) := by
      rw [Real.log_pow]
    rw [h2]
    ring_nf
  · intro logF n x a hn hx hp
    have h2 : LogVal.natMul n LogVal.ninf = LogVal.ninf := by
      unfold LogVal.natMul
      rw [if_neg hn.ne']
    unfold max_logprob_discrete
    rw [hx, hp, h2]
    show LogVal.fin ((n : ℝ) * a + 0) = LogVal.fin ((n : ℝ) * a)
    rw [add_zero]

/-- C2 witness: the discrete uniform over `{0,...,4}` with 3 i.i.d. draws
at value 2: the hypotheses hold (`0 < F 1 < F 2`) and the rule returns
`log (0.6^3 - 0.4^3) = log 0.152`. -/
theorem max_logprob_discrete_claim_witness :
    0 < dus5_cdf 1 ∧ dus5_cdf 1 < dus5_cdf 2 ∧
    max_logprob_discrete dus5_logcdf 3 2 = LogVal.fin (Real.log 0.152) := by
  have h1 : dus5_cdf 1 = 0.4 := by unfold dus5_cdf; norm_num
  have h2 : dus5_cdf 2 = 0.6 := by unfold dus5_cdf; norm_num
  have hp : 0 < dus5_cdf ((2 : ℝ) - 1) := by norm_num [h1]
  have hlt : dus5_cdf ((2 : ℝ) - 1) < dus5_cdf 2 := by norm_num [h1, h2]
  have happ := max_logprob_discrete_claim.2.1 dus5_cdf 3 2 (by norm_num) hp hlt
  refine ⟨by norm_num [h1], by norm_num [h1, h2], ?_⟩
  have hfun : dus5_logcdf = fun y => LogVal.fin (Real.log (dus5_cdf y)) := rfl
  rw [hfun, happ]
  norm_num [h1, h2]

/-- C3: the discrete-min rule returns `-inf` through its explicit branch
whenever both log-survival terms are `-inf`, and in particular never
returns `NaN` there (first conjunct); otherwise it returns the
survival-based discrete-max analogue through the stable log-difference
primitive (second conjunct); and without the branch, feeding the two
`-inf` terms into the primitive would produce `NaN` (third conjunct). -/
theorem discrete_max_neg_logprob_claim :
    (∀ (logF : ℝ → LogVal) (n : ℕ) (x : ℝ),
        (LogVal.log1mexp (logF (-x))).isNinf = true →
        (LogVal.log1mexp (logF (-(x + 1)))).isNinf = true →
        discrete_max_neg_logprob logF n x = LogVal.ninf ∧
          discrete_max_neg_logprob logF n x ≠ LogVal.nan) ∧
    (∀ (logF : ℝ → LogVal) (n : ℕ) (x : ℝ),
        ¬((LogVal.log1mexp (logF (-x))).isNinf = true ∧
            (LogVal.log1mexp (logF (-(x + 1)))).isNinf = true) →
        discrete_max_neg_logprob logF n x =
          LogVal.logdiffexp
            (LogVal.natMul n (LogVal.log1mexp (logF (-(x + 1)))))
            (LogVal.natMul n (LogVal.log1mexp (logF (-x))))) ∧
    (∀ n : ℕ, 0 < n →
        LogVal.logdiffexp (LogVal.natMul n LogVal.ninf)
          (LogVal.natMul n LogVal.ninf) = LogVal.nan) := by
  refine ⟨?_, ?_, ?_⟩
  · intro logF n x h1 h2
    have hval : discrete_max_neg_logprob logF n x = LogVal.ninf := by
      simp only [discrete_max_neg_logprob]
      rw [h1, h2]
      rfl
    exact ⟨hval, by rw [hval]; exact fun hc => by cases hc⟩
  · intro logF n x h
    simp only [discrete_max_neg_logprob]
    rw [if_neg]
    intro hc
    rw [Bool.and_eq_true] at hc
    exact h hc
  · intro n hn
    have h2 : LogVal.natMul n LogVal.ninf = LogVal.ninf := by
      unfold LogVal.natMul
      rw [if_neg hn.ne']
    rw [h2]
    rfl

/-- C3 witness: a base whose log-CDF is identically `0` (total mass already
accumulated, so both survival terms are `-inf`): the branch hypotheses
hold and the rule returns `-inf` (and not `NaN`). -/
theorem discrete_max_neg_logprob_claim_witness :
    (LogVal.log1mexp ((fun _ : ℝ => LogVal.fin 0) (-(0 : ℝ)))).isNinf = true ∧
    discrete_max_neg_logprob (fun _ : ℝ => LogVal.fin 0) 3 0 = LogVal.ninf ∧
    discrete_max_neg_logprob (fun _ : ℝ => LogVal.fin 0) 3 0 ≠ LogVal.nan := by
  have hlm : LogVal.log1mexp (LogVal.fin 0) = LogVal.ninf := by
    unfold LogVal.log1mexp
    norm_num
  have h1 : (LogVal.log1mexp ((fun _ : ℝ => LogVal.fin 0) (-(0 : ℝ)))).isNinf = true := by
    rw [hlm]; rfl
  have h2 : (LogVal.log1mexp ((fun _ : ℝ => LogVal.fin 0) (-((0 : ℝ) + 1)))).isNinf = true := by
    rw [hlm]; rfl
  have happ := discrete_max_neg_logprob_claim.1 (fun _ : ℝ => LogVal.fin 0) 3 0 h1 h2
  exact ⟨h1, happ.1, happ.2⟩

/-! ## Theorems: ancestor reachability analyzer -/

mutual

theorem cpm_walk_iff (valued : List Var) (v : Var) :
    cpm_walk valued v = true ↔
      ∃ t, ReachesThroughUnvalued valued v t ∧
        t.measurableOwner = true ∧ t ∉ valued := by
  cases v with
  | leaf i =>
      rw [cpm_walk]
      constructor
      · intro h; cases h
      · rintro ⟨t, hr, hm, _⟩
        cases hr
        cases hm
  | node i m ins =>
      rw [cpm_walk]
      simp only [Bool.or_eq_true, Bool.and_eq_true, Bool.not_eq_true',
        decide_eq_false_iff_not]
      constructor
      · rintro (⟨hm, hnv⟩ | ⟨⟨hm, hnv⟩, hl⟩)
        · exact ⟨Var.node i m ins, .refl _, hm, hnv⟩
        · obtain ⟨w, hw, t, hr, htm, htv⟩ := (cpm_walkList_iff valued ins).mp hl
          subst hm
          exact ⟨t, .step i ins w t hnv hw hr, htm, htv⟩
      · rintro ⟨t, hr, htm, htv⟩
        cases hr with
        | refl => exact Or.inl ⟨htm, htv⟩
        | step _ _ w _ hnv hw hr' =>
            exact Or.inr ⟨⟨rfl, hnv⟩,
              (cpm_walkList_iff valued ins).mpr ⟨w, hw, t, hr', htm, htv⟩⟩

theorem cpm_walkList_iff (valued : List Var) (vs : List Var) :
    cpm_walkList valued vs = true ↔
      ∃ v ∈ vs, ∃ t, ReachesThroughUnvalued valued v t ∧
        t.measurableOwner = true ∧ t ∉ valued := by
  cases vs with
  | nil =>
      rw [cpm_walkList]
      simp
  | cons v vs =>
      rw [cpm_walkList]
      simp only [Bool.or_eq_true]
      constructor
      · rintro (h | h)
        · obtain ⟨t, ht⟩ := (cpm_walk_iff valued v).mp h
          exact ⟨v, List.mem_cons_self v vs, t, ht⟩
        · obtain ⟨w, hw, rest⟩ := (cpm_walkList_iff valued vs).mp h
          exact ⟨w, List.mem_cons_of_mem _ hw, rest⟩
      · rintro ⟨w, hw, t, hr, hm, hnv⟩
        rcases List.mem_cons.mp hw with rfl | hw'
        · exact Or.inl ((cpm_walk_iff valued w).mpr ⟨t, hr, hm, hnv⟩)
        · exact Or.inr ((cpm_walkList_iff valued vs).mpr ⟨w, hw', t, hr, hm, hnv⟩)

end

/-- C5: `check_potential_measurability` returns true iff a backward
traversal from some candidate input reaches a variable with a measurable
owner op that is not in the valued set, where the traversal never expands
past a node that is itself measurable or valued (such nodes are opaque
barriers: they can be the reached target but are not looked inside). -/
theorem check_potential_measurability_claim :
    ∀ (inputs valued : List Var),
      check_potential_measurability inputs valued = true ↔
        ∃ v ∈ inputs, ∃ t, ReachesThroughUnvalued valued v t ∧
          t.measurableOwner = true ∧ t ∉ valued := by
  intro inputs valued
  exact cpm_walkList_iff valued inputs

/-! ## Theorems: order-statistic recognizers -/

/-- C6: a `Max` node fails to be rewritten (the rule returns `none`, its
"no replacement found") whenever any recognizer precondition fails: the
operand has no producing operation, or the producing op is not a
`RandomVariable` with scalar support, or some distribution parameter has
rank above 0, or the reduction axis set does not cover every dimension of
the operand.  The embedding is a total function, so no exception or
logging is possible on this path. -/
theorem find_measurable_max_rejects_claim :
    ∀ (hasFeature : Bool) (request_measurable : List TVar → Bool)
      (axis : List ℕ) (base_var : TVar),
      (base_var.owner = none ∨
       (∀ op ins, base_var.owner = some (op, ins) → op.isScalarRV = false) ∨
       (∃ op ins, base_var.owner = some (op, ins) ∧
          paramsAllScalar ins = false) ∨
       axisCoversDims axis base_var.ndim = false) →
      find_measurable_max hasFeature request_measurable (TOp.maxOp axis)
        [base_var] = none := by
  intro hasFeature req axis base_var h
  cases base_var with
  | mk nd owner =>
  cases hasFeature with
  | false => rfl
  | true =>
  cases owner with
  | none => rfl
  | some p =>
    obtain ⟨op, ins⟩ := p
    simp only [TVar.owner, TVar.ndim] at h
    rcases h with h | h | h | h
    · exact absurd h (by simp)
    · have hsc := h op ins rfl
      cases hreq : req [TVar.mk nd (some (op, ins))] <;>
        simp [find_measurable_max, TOp.isMeasurableMax, TOp.maxAxis,
          TVar.owner, TVar.ndim, hreq, hsc]
    · obtain ⟨op', ins', heq, hpar⟩ := h
      simp only [Option.some.injEq, Prod.mk.injEq] at heq
      obtain ⟨rfl, rfl⟩ := heq
      cases hreq : req [TVar.mk nd (some (op, ins))] <;>
        cases hsc : op.isScalarRV <;>
          simp [find_measurable_max, TOp.isMeasurableMax, TOp.maxAxis,
            TVar.owner, TVar.ndim, hreq, hsc, hpar]
    · cases hreq : req [TVar.mk nd (some (op, ins))] <;>
        cases hsc : op.isScalarRV <;>
          cases hpar : paramsAllScalar ins <;>
            simp [find_measurable_max, TOp.isMeasurableMax, TOp.maxAxis,
              TVar.owner, TVar.ndim, hreq, hsc, hpar, h]

/-- C6 witness: a max over an operand with no producing operation (a free
rank-1 variable) is not rewritten. -/
theorem find_measurable_max_rejects_claim_witness :
    (TVar.mk 1 none).owner = none ∧
    find_measurable_max true (fun _ => true) (TOp.maxOp [0])
      [TVar.mk 1 none] = none :=
  ⟨rfl, find_measurable_max_rejects_claim true (fun _ => true) [0]
    (TVar.mk 1 none) (Or.inl rfl)⟩

/-- C7: whenever `find_measurable_max_neg` produces a replacement, the
marker node it constructed has the un-negated base random variable (the
output of `find_negated_var`) as its sole input — the negation is not
materialized — and it is that un-negated variable that was passed to (and
accepted by) `request_measurable`. -/
theorem find_measurable_max_neg_wraps_claim :
    ∀ (hasFeature : Bool) (request_measurable : List TVar → Bool) (op : TOp)
      (inputs outs : List TVar),
      find_measurable_max_neg hasFeature request_measurable op inputs =
        some outs →
      ∃ base_var base_rv axis,
        inputs = [base_var] ∧
        find_negated_var base_var = some base_rv ∧
        request_measurable [base_rv] = true ∧
        (outs = [TVar.mk 0 (some (TOp.measurableMaxNeg axis, [base_rv]))] ∨
         outs =
           [TVar.mk 0 (some (TOp.measurableDiscreteMaxNeg axis, [base_rv]))]) := by
  intro feat req op inputs outs h
  simp only [find_measurable_max_neg] at h
  repeat' split at h
  all_goals try exact Option.noConfusion h
  all_goals rename_i hreq _hdty
  all_goals simp at hreq
  all_goals obtain rfl := (Option.some.inj h).symm
  all_goals
    exact ⟨_, _, _, rfl, by assumption, hreq,
      by first | exact Or.inl rfl | exact Or.inr rfl⟩

/-- C7 witness: for the concrete `max((-1) * x)` graph over the univariate
i.i.d. draw `wBaseRV`, the rewrite fires and the recognizer's conclusion
holds; the constructed marker's sole input is the un-negated `wBaseRV`. -/
theorem find_measurable_max_neg_wraps_claim_witness :
    find_measurable_max_neg true (fun _ => true) (TOp.maxOp [0]) [wNegX] =
      some [TVar.mk 0 (some (TOp.measurableMaxNeg [0], [wBaseRV]))] ∧
    ∃ base_var base_rv axis,
      [wNegX] = [base_var] ∧
      find_negated_var base_var = some base_rv ∧
      (fun _ : List TVar => true) [base_rv] = true ∧
      ([TVar.mk 0 (some (TOp.measurableMaxNeg [0], [wBaseRV]))] =
          [TVar.mk 0 (some (TOp.measurableMaxNeg axis, [base_rv]))] ∨
       [TVar.mk 0 (some (TOp.measurableMaxNeg [0], [wBaseRV]))] =
          [TVar.mk 0 (some (TOp.measurableDiscreteMaxNeg axis, [base_rv]))]) := by
  have heval : find_measurable_max_neg true (fun _ => true) (TOp.maxOp [0])
      [wNegX] =
      some [TVar.mk 0 (some (TOp.measurableMaxNeg [0], [wBaseRV]))] := rfl
  exact ⟨heval, find_measurable_max_neg_wraps_claim true (fun _ => true)
    (TOp.maxOp [0]) [wNegX] _ heval⟩

/-! ## Theorems: transform algebra -/

/-- C10 counterexample: `SumTo1` has no degenerate-size-1 special case: on
the one-element simplex `[1]` its forward map drops the only entry and
returns the empty vector, not the input. -/
theorem sum_to_1_degenerate_counterexample :
    Transform.forward Transform.sumTo1 [(1 : ℝ)] = [] ∧
    Transform.forward Transform.sumTo1 [(1 : ℝ)] ≠ [(1 : ℝ)] := by
  have h : Transform.forward Transform.sumTo1 [(1 : ℝ)] = [] := by
    rw [Transform.forward]
    rfl
  refine ⟨h, ?_⟩
  rw [h]
  exact fun hc => by cases hc

/-- C10 (amended): `StickBreaking` on a degenerate simplex (broadcastable
last dimension) is the identity in forward and backward; `SumTo1` has no
such special case — its forward always drops the last entry and its
backward appends the complement of the sum; `Interval` with one finite
bound degenerates to the one-sided log / negated-log (exp-based) maps, and
with no finite bound to the identity. -/
theorem degenerate_transform_claim :
    (∀ v : List ℝ, Transform.forward (Transform.stickBreaking true) v = v ∧
        Transform.backward (Transform.stickBreaking true) v = v) ∧
    (∀ v : List ℝ, Transform.forward Transform.sumTo1 v = v.dropLast ∧
        Transform.backward Transform.sumTo1 v = v ++ [1 - v.sum]) ∧
    (∀ v : List ℝ, Transform.forward (Transform.interval none none) v = v ∧
        Transform.backward (Transform.interval none none) v = v) ∧
    (∀ (a : ℝ) (v : List ℝ),
        Transform.forward (Transform.interval (some a) none) v =
          v.map (fun x => Real.log (x - a)) ∧
        Transform.backward (Transform.interval (some a) none) v =
          v.map (fun y => Real.exp y + a)) ∧
    (∀ (b : ℝ) (v : List ℝ),
        Transform.forward (Transform.interval none (some b)) v =
          v.map (fun x => Real.log (b - x)) ∧
        Transform.backward (Transform.interval none (some b)) v =
          v.map (fun y => b - Real.exp y)) := by
  refine ⟨fun v => ⟨by rw [Transform.forward], by rw [Transform.backward]⟩,
    fun v => ⟨by rw [Transform.forward], by rw [Transform.backward]⟩,
    fun v => ?_, fun a v => ?_, fun b v => ?_⟩
  · constructor
    · rw [Transform.forward]
      simp [intervalFwd]
    · rw [Transform.backward]
      simp [intervalBwd]
  · exact ⟨by rw [Transform.forward]; rfl, by rw [Transform.backward]; rfl⟩
  · exact ⟨by rw [Transform.forward]; rfl, by rw [Transform.backward]; rfl⟩

theorem JD.ndim_le_one (d : JD) : JD.ndim d ≤ 1 := by
  cases d <;> simp [JD.ndim]

theorem JD.scalar_zero_add (d : JD) : JD.add (.scalar 0) d = d := by
  cases d <;> simp [JD.add]

theorem JD.add_comm_jd (d e : JD) : JD.add d e = JD.add e d := by
  cases d with
  | scalar a =>
      cases e with
      | scalar b => simp [JD.add, add_comm]
      | vec w => simp [JD.add, add_comm]
  | vec v =>
      cases e with
      | scalar b => simp [JD.add, add_comm]
      | vec w => simpa [JD.add] using List.zipWith_comm_of_comm _ add_comm v w

/-- C9: for a two-element chain, `Chain.jacobian_det` equals the sum of
`T1.jacobian_det` at the re-derived input `T2.backward y` and
`T2.jacobian_det` at `y`, where each term whose rank exceeds the minimum
rank across the chain is first summed over its trailing axis. -/
theorem chain_jacobian_det_claim :
    ∀ (t1 t2 : Transform) (y : List ℝ),
      Transform.jacobian_det (Transform.chain [t1, t2]) y =
        JD.add
          (JD.alignTo
            (min (JD.ndim (Transform.jacobian_det t1 (Transform.backward t2 y)))
              (JD.ndim (Transform.jacobian_det t2 y)))
            (Transform.jacobian_det t1 (Transform.backward t2 y)))
          (JD.alignTo
            (min (JD.ndim (Transform.jacobian_det t1 (Transform.backward t2 y)))
              (JD.ndim (Transform.jacobian_det t2 y)))
            (Transform.jacobian_det t2 y)) := by
  intro t1 t2 y
  rw [Transform.jacobian_det]
  rw [Transform.chainDets, Transform.chainDets, Transform.chainDets]
  simp only [List.nil_append, List.cons_append, List.foldl_cons, List.foldl_nil]
  have h1 := JD.ndim_le_one (Transform.jacobian_det t1 (Transform.backward t2 y))
  have h2 := JD.ndim_le_one (Transform.jacobian_det t2 y)
  have hmin :
      min (min 1 (JD.ndim (Transform.jacobian_det t2 y)))
        (JD.ndim (Transform.jacobian_det t1 (Transform.backward t2 y))) =
      min (JD.ndim (Transform.jacobian_det t1 (Transform.backward t2 y)))
        (JD.ndim (Transform.jacobian_det t2 y)) := by omega
  rw [hmin, JD.scalar_zero_add]
  exact JD.add_comm_jd _ _

theorem map_map_id (f g : ℝ → ℝ) (x : List ℝ) (h : ∀ a ∈ x, g (f a) = a) :
    (x.map f).map g = x := by
  rw [List.map_map]
  have hc : ∀ a ∈ x, (g ∘ f) a = id a := h
  rw [List.map_congr_left hc, List.map_id]

theorem softplus_logexpm1 (a : ℝ) (h : 0 < a) :
    softplus (Real.log (1 - Real.exp (-a)) + a) = a := by
  unfold softplus
  have h1 : Real.exp (-a) < 1 := by
    rw [Real.exp_lt_one_iff]
    linarith
  have h2 : (0 : ℝ) < 1 - Real.exp (-a) := by linarith
  rw [Real.exp_add, Real.exp_log h2]
  have h3 : (1 - Real.exp (-a)) * Real.exp a = Real.exp a - 1 := by
    rw [sub_mul, one_mul, ← Real.exp_add]
    simp
  rw [h3]
  have h4 : (1 : ℝ) + (Real.exp a - 1) = Real.exp a := by ring
  rw [h4, Real.log_exp]

theorem logexpm1_softplus (b : ℝ) :
    Real.log (1 - Real.exp (-softplus b)) + softplus b = b := by
  unfold softplus
  have hpos : (0 : ℝ) < 1 + Real.exp b := by positivity
  have h1 : Real.exp (-Real.log (1 + Real.exp b)) = (1 + Real.exp b)⁻¹ := by
    rw [Real.exp_neg, Real.exp_log hpos]
  rw [h1]
  have h2 : 1 - (1 + Real.exp b)⁻¹ = Real.exp b / (1 + Real.exp b) := by
    field_simp
  rw [h2, Real.log_div (ne_of_gt (Real.exp_pos b)) (ne_of_gt hpos), Real.log_exp]
  ring

theorem invlogit_pos (b : ℝ) : 0 < invlogit b := by
  unfold invlogit
  positivity

theorem invlogit_lt_one (b : ℝ) : invlogit b < 1 := by
  unfold invlogit
  rw [div_lt_one (by positivity)]
  have := Real.exp_pos (-b)
  linarith

theorem invlogit_logit (a : ℝ) (h0 : 0 < a) (h1 : a < 1) :
    invlogit (logit a) = a := by
  unfold invlogit logit
  have hden : (0 : ℝ) < 1 - a := by linarith
  have hq : (0 : ℝ) < a / (1 - a) := div_pos h0 hden
  rw [Real.exp_neg, Real.exp_log hq, inv_div]
  rw [show 1 + (1 - a) / a = 1 / a by field_simp]
  simp

theorem logit_invlogit (b : ℝ) : logit (invlogit b) = b := by
  unfold invlogit logit
  have hpos : (0 : ℝ) < 1 + Real.exp (-b) := by positivity
  have h1 : 1 - 1 / (1 + Real.exp (-b)) = Real.exp (-b) / (1 + Real.exp (-b)) := by
    field_simp
  rw [h1]
  have h2 : 1 / (1 + Real.exp (-b)) / (Real.exp (-b) / (1 + Real.exp (-b))) =
      1 / Real.exp (-b) := by
    have he : Real.exp (-b) ≠ 0 := ne_of_gt (Real.exp_pos _)
    field_simp
  rw [h2, one_div, Real.exp_neg, inv_inv, Real.log_exp]

theorem interval_bf_both (a b v : ℝ) (ha : a < v) (hb : v < b) :
    intervalBwd (some a) (some b) (intervalFwd (some a) (some b) v) = v := by
  show invlogit (Real.log (v - a) - Real.log (b - v)) * b +
      (1 - invlogit (Real.log (v - a) - Real.log (b - v))) * a = v
  have hva : (0 : ℝ) < v - a := by linarith
  have hbv : (0 : ℝ) < b - v := by linarith
  have hq : (0 : ℝ) < (v - a) / (b - v) := div_pos hva hbv
  have h1 : Real.log (v - a) - Real.log (b - v) =
      Real.log ((v - a) / (b - v)) :=
    (Real.log_div (ne_of_gt hva) (ne_of_gt hbv)).symm
  have h2 : invlogit (Real.log ((v - a) / (b - v))) = (v - a) / (b - a) := by
    unfold invlogit
    rw [Real.exp_neg, Real.exp_log hq, inv_div]
    rw [show 1 + (b - v) / (v - a) = (b - a) / (v - a) by field_simp]
    rw [one_div_div]
  rw [h1, h2]
  have hba : (0 : ℝ) < b - a := by linarith
  field_simp
  ring

theorem interval_fb_both (a b y : ℝ) (hab : a < b) :
    intervalFwd (some a) (some b) (intervalBwd (some a) (some b) y) = y := by
  show Real.log (invlogit y * b + (1 - invlogit y) * a - a) -
      Real.log (b - (invlogit y * b + (1 - invlogit y) * a)) = y
  have h0 := invlogit_pos y
  have h1 := invlogit_lt_one y
  have hba : (0 : ℝ) < b - a := by linarith
  have e1 : invlogit y * b + (1 - invlogit y) * a - a = invlogit y * (b - a) := by
    ring
  have e2 : b - (invlogit y * b + (1 - invlogit y) * a) =
      (1 - invlogit y) * (b - a) := by ring
  rw [e1, e2, ← Real.log_div (ne_of_gt (mul_pos h0 hba))
    (ne_of_gt (mul_pos (by linarith) hba))]
  have e3 : invlogit y * (b - a) / ((1 - invlogit y) * (b - a)) =
      invlogit y / (1 - invlogit y) := by
    rw [mul_div_mul_right _ _ (ne_of_gt hba)]
  rw [e3]
  have h4 := logit_invlogit y
  unfold logit at h4
  exact h4

theorem interval_bf_left (a v : ℝ) (h : a < v) :
    intervalBwd (some a) none (intervalFwd (some a) none v) = v := by
  show Real.exp (Real.log (v - a)) + a = v
  rw [Real.exp_log (by linarith)]
  ring

theorem interval_fb_left (a y : ℝ) :
    intervalFwd (some a) none (intervalBwd (some a) none y) = y := by
  show Real.log (Real.exp y + a - a) = y
  rw [add_sub_cancel_right, Real.log_exp]

theorem interval_bf_right (b v : ℝ) (h : v < b) :
    intervalBwd none (some b) (intervalFwd none (some b) v) = v := by
  show b - Real.exp (Real.log (b - v)) = v
  rw [Real.exp_log (by linarith)]
  ring

theorem interval_fb_right (b y : ℝ) :
    intervalFwd none (some b) (intervalBwd none (some b) y) = y := by
  show Real.log (b - (b - Real.exp y)) = y
  rw [show b - (b - Real.exp y) = Real.exp y by ring, Real.log_exp]

theorem arctan2_sin_cos (θ : ℝ) (h1 : -Real.pi < θ) (h2 : θ ≤ Real.pi) :
    arctan2 (Real.sin θ) (Real.cos θ) = θ := by
  unfold arctan2
  rw [Complex.ofReal_cos, Complex.ofReal_sin]
  exact Complex.arg_cos_add_sin_mul_I ⟨h1, h2⟩

theorem orderedFwdAux_bwdAux (p : ℝ) (ys : List ℝ) :
    orderedFwdAux p (orderedBwdAux p ys) = ys := by
  induction ys generalizing p with
  | nil => rfl
  | cons y ys ih =>
      rw [orderedBwdAux, orderedFwdAux, add_sub_cancel_left, Real.log_exp, ih]

theorem orderedBwdAux_fwdAux (p : ℝ) (xs : List ℝ)
    (h : List.Chain' (· < ·) (p :: xs)) :
    orderedBwdAux p (orderedFwdAux p xs) = xs := by
  induction xs generalizing p with
  | nil => rfl
  | cons x xs ih =>
      have hpx : p < x := (List.chain'_cons.mp h).1
      have htail : List.Chain' (· < ·) (x :: xs) := (List.chain'_cons.mp h).2
      rw [orderedFwdAux, orderedBwdAux,
        Real.exp_log (by linarith : (0 : ℝ) < x - p),
        show p + (x - p) = x by ring, ih x htail]

theorem orderedBwd_orderedFwd (x : List ℝ) (h : List.Chain' (· < ·) x) :
    orderedBwd (orderedFwd x) = x := by
  cases x with
  | nil => rfl
  | cons a xs =>
      rw [orderedFwd, orderedBwd, orderedBwdAux_fwdAux a xs h]

theorem orderedFwd_orderedBwd (y : List ℝ) : orderedFwd (orderedBwd y) = y := by
  cases y with
  | nil => rfl
  | cons a ys =>
      rw [orderedBwd, orderedFwd, orderedFwdAux_bwdAux]

theorem sumTo1_bf (x : List ℝ) (hne : x ≠ []) (hsum : x.sum = 1) :
    x.dropLast ++ [1 - x.dropLast.sum] = x := by
  have hdecomp := List.dropLast_append_getLast hne
  have hs : x.dropLast.sum + x.getLast hne = x.sum := by
    conv_rhs => rw [← hdecomp]
    rw [List.sum_append]
    simp
  have hlast : 1 - x.dropLast.sum = x.getLast hne := by
    rw [← hsum]
    linarith
  rw [hlast, hdecomp]

theorem applyAtFrom_log_exp (idxs : List ℕ) (i : ℕ) (y : List ℝ) :
    applyAtFrom idxs Real.log i (applyAtFrom idxs Real.exp i y) = y := by
  induction y generalizing i with
  | nil => rfl
  | cons a l ih =>
      rw [applyAtFrom, applyAtFrom]
      by_cases hm : i ∈ idxs
      · simp only [if_pos hm, Real.log_exp, ih]
      · simp only [if_neg hm, ih]

theorem applyAtFrom_exp_log (idxs : List ℕ) (i : ℕ) (x : List ℝ)
    (h : posAtFrom idxs i x) :
    applyAtFrom idxs Real.exp i (applyAtFrom idxs Real.log i x) = x := by
  induction x generalizing i with
  | nil => rfl
  | cons a l ih =>
      rw [posAtFrom] at h
      obtain ⟨ha, hl⟩ := h
      rw [applyAtFrom, applyAtFrom]
      by_cases hm : i ∈ idxs
      · simp only [if_pos hm]
        rw [Real.exp_log (ha hm), ih _ hl]
      · simp only [if_neg hm]
        rw [ih _ hl]

theorem list_sum_map_sub_const (l : List ℝ) (c : ℝ) :
    (l.map (fun v => v - c)).sum = l.sum - l.length * c := by
  induction l with
  | nil => simp
  | cons a t ih =>
      simp [ih]
      ring

theorem sum_map_exp_pos (w : List ℝ) (hne : w ≠ []) :
    0 < (w.map Real.exp).sum := by
  apply List.sum_pos
  · intro a ha
    obtain ⟨b, _, rfl⟩ := List.mem_map.mp ha
    exact Real.exp_pos b
  · intro hc
    exact hne (List.map_eq_nil_iff.mp hc)

theorem softmaxShift_eq (w : List ℝ) :
    softmaxShift w = w.map (fun t => Real.exp t / (w.map Real.exp).sum) := by
  simp only [softmaxShift]
  rw [List.map_map]
  have hfun : (fun t => Real.exp (t - listMax w)) =
      fun t => Real.exp t * Real.exp (-listMax w) := by
    funext t
    rw [Real.exp_sub, Real.exp_neg, div_eq_mul_inv]
  have hsum : (w.map fun t => Real.exp (t - listMax w)).sum =
      (w.map Real.exp).sum * Real.exp (-listMax w) := by
    rw [hfun]
    exact List.sum_map_mul_right w Real.exp (Real.exp (-listMax w))
  apply List.map_congr_left
  intro t _
  simp only [Function.comp]
  rw [hsum, show Real.exp (t - listMax w) =
    Real.exp t * Real.exp (-listMax w) from by
      rw [Real.exp_sub, Real.exp_neg, div_eq_mul_inv]]
  rw [mul_div_mul_right _ _ (ne_of_gt (Real.exp_pos (-listMax w)))]

theorem stickFwd_stickBwd_eq (y : List ℝ) : stickFwd (stickBwd y) = y := by
  simp only [stickBwd]
  rw [softmaxShift_eq]
  have hwne : y ++ [-y.sum] ≠ [] := by simp
  have hS : 0 < ((y ++ [-y.sum]).map Real.exp).sum := sum_map_exp_pos _ hwne
  simp only [stickFwd]
  rw [List.map_map]
  have hmaplog : (y ++ [-y.sum]).map
        (Real.log ∘ fun t => Real.exp t / ((y ++ [-y.sum]).map Real.exp).sum) =
      (y ++ [-y.sum]).map
        (fun t => t - Real.log (((y ++ [-y.sum]).map Real.exp).sum)) := by
    apply List.map_congr_left
    intro t _
    simp only [Function.comp]
    rw [Real.log_div (ne_of_gt (Real.exp_pos t)) (ne_of_gt hS), Real.log_exp]
  rw [hmaplog]
  have hwsum : (y ++ [-y.sum]).sum = 0 := by
    rw [List.sum_append]
    simp
  have hsum2 : ((y ++ [-y.sum]).map
      (fun t => t - Real.log (((y ++ [-y.sum]).map Real.exp).sum))).sum =
      -((y ++ [-y.sum]).length *
        Real.log (((y ++ [-y.sum]).map Real.exp).sum)) := by
    rw [list_sum_map_sub_const, hwsum]
    ring
  have hlen2 : ((y ++ [-y.sum]).length : ℝ) ≠ 0 := by
    rw [List.length_append]
    push_cast
    simp
    positivity
  simp only [List.length_map]
  rw [hsum2]
  rw [show -((y ++ [-y.sum]).length *
      Real.log (((y ++ [-y.sum]).map Real.exp).sum)) /
      ((y ++ [-y.sum]).length : ℝ) =
      -Real.log (((y ++ [-y.sum]).map Real.exp).sum) from by field_simp; ring]
  have hdrop : ((y ++ [-y.sum]).map
      (fun t => t - Real.log (((y ++ [-y.sum]).map Real.exp).sum))).dropLast =
      y.map (fun t => t - Real.log (((y ++ [-y.sum]).map Real.exp).sum)) := by
    rw [List.map_append]
    simp only [List.map_cons, List.map_nil]
    exact List.dropLast_concat ..
  rw [hdrop]
  apply map_map_id
  intro a _
  ring

theorem stickBwd_stickFwd_eq (x : List ℝ) (hne : x ≠ [])
    (hpos : ∀ a ∈ x, 0 < a) (hsum : x.sum = 1) :
    stickBwd (stickFwd x) = x := by
  have hKne : (x.length : ℝ) ≠ 0 := by
    rw [Nat.cast_ne_zero]
    intro hc
    exact hne (List.length_eq_zero.mp hc)
  simp only [stickFwd, stickBwd]
  set s := (x.map Real.log).sum / (x.length : ℝ) with hs
  have hl'ne : (x.map Real.log).map (fun v => v - s) ≠ [] := by
    intro hc
    exact hne (List.map_eq_nil_iff.mp (List.map_eq_nil_iff.mp hc))
  have hl'sum : ((x.map Real.log).map (fun v => v - s)).sum = 0 := by
    rw [list_sum_map_sub_const, List.length_map, hs]
    field_simp
  have hydrop : (x.map Real.log).dropLast.map (fun v => v - s) =
      ((x.map Real.log).map (fun v => v - s)).dropLast :=
    List.map_dropLast ..
  have hdecomp := List.dropLast_append_getLast hl'ne
  have hglast : ((x.map Real.log).map (fun v => v - s)).getLast hl'ne =
      -((x.map Real.log).dropLast.map (fun v => v - s)).sum := by
    have hsplit : (((x.map Real.log).map (fun v => v - s)).dropLast).sum +
        ((x.map Real.log).map (fun v => v - s)).getLast hl'ne =
        ((x.map Real.log).map (fun v => v - s)).sum := by
      conv_rhs => rw [← hdecomp]
      rw [List.sum_append]
      simp
    rw [hl'sum] at hsplit
    rw [hydrop]
    linarith
  rw [← hglast, hydrop, hdecomp]
  rw [softmaxShift_eq]
  have hexp : ((x.map Real.log).map (fun v => v - s)).map Real.exp =
      x.map (fun a => a * Real.exp (-s)) := by
    rw [List.map_map, List.map_map]
    apply List.map_congr_left
    intro a ha
    simp only [Function.comp]
    rw [show Real.log a - s = Real.log a + -s from by ring, Real.exp_add,
      Real.exp_log (hpos a ha)]
  have hSsum : (((x.map Real.log).map (fun v => v - s)).map Real.exp).sum =
      Real.exp (-s) := by
    rw [hexp]
    have hmr := List.sum_map_mul_right x id (Real.exp (-s))
    simp only [List.map_id] at hmr
    rw [show (x.map fun a => a * Real.exp (-s)) =
      (x.map fun a => id a * Real.exp (-s)) from rfl, hmr, hsum, one_mul]
  rw [hSsum, List.map_map, List.map_map]
  have hfin : ∀ a ∈ x,
      (((fun t => Real.exp t / Real.exp (-s)) ∘
        fun v => v - s) ∘ Real.log) a = id a := by
    intro a ha
    simp only [Function.comp, id]
    rw [show Real.log a - s = Real.log a + -s from by ring, Real.exp_add,
      Real.exp_log (hpos a ha)]
    exact mul_div_cancel_right₀ a (ne_of_gt (Real.exp_pos _))
  rw [List.map_congr_left hfin, List.map_id]

mutual

theorem transform_bf (t : Transform) (x : List ℝ) (h : Transform.dom t x) :
    Transform.backward t (Transform.forward t x) = x := by
  cases t with
  | log =>
      rw [Transform.dom] at h
      rw [Transform.forward, Transform.backward]
      exact map_map_id _ _ x fun a ha => Real.exp_log (h a ha)
  | logExpM1 =>
      rw [Transform.dom] at h
      rw [Transform.forward, Transform.backward]
      exact map_map_id _ _ x fun a ha => softplus_logexpm1 a (h a ha)
  | logOdds =>
      rw [Transform.dom] at h
      rw [Transform.forward, Transform.backward]
      exact map_map_id _ _ x fun a ha => invlogit_logit a (h a ha).1 (h a ha).2
  | interval a b =>
      cases a with
      | none =>
          cases b with
          | none =>
              rw [Transform.forward, Transform.backward]
              exact map_map_id _ _ x fun a _ => rfl
          | some b =>
              rw [Transform.dom] at h
              rw [Transform.forward, Transform.backward]
              exact map_map_id _ _ x fun v hv => interval_bf_right b v (h v hv)
      | some a =>
          cases b with
          | none =>
              rw [Transform.dom] at h
              rw [Transform.forward, Transform.backward]
              exact map_map_id _ _ x fun v hv => interval_bf_left a v (h v hv)
          | some b =>
              rw [Transform.dom] at h
              rw [Transform.forward, Transform.backward]
              exact map_map_id _ _ x fun v hv =>
                interval_bf_both a b v (h v hv).1 (h v hv).2
  | ordered =>
      rw [Transform.dom] at h
      rw [Transform.forward, Transform.backward]
      exact orderedBwd_orderedFwd x h
  | sumTo1 =>
      rw [Transform.dom] at h
      rw [Transform.forward, Transform.backward]
      exact sumTo1_bf x h.1 h.2
  | stickBreaking d =>
      cases d with
      | true => rw [Transform.forward, Transform.backward]
      | false =>
          rw [Transform.dom] at h
          rw [Transform.forward, Transform.backward]
          exact stickBwd_stickFwd_eq x h.1 h.2.1 h.2.2
  | circular =>
      rw [Transform.dom] at h
      rw [Transform.forward, Transform.backward]
      have hc : ∀ a ∈ x, arctan2 (Real.sin a) (Real.cos a) = id a :=
        fun a ha => arctan2_sin_cos a (h a ha).1 (h a ha).2
      rw [List.map_congr_left hc, List.map_id]
  | choleskyCovPacked idxs =>
      rw [Transform.dom] at h
      rw [Transform.forward, Transform.backward]
      exact applyAtFrom_exp_log idxs 0 x h
  | chain ts =>
      rw [Transform.dom] at h
      rw [Transform.forward, Transform.backward]
      exact transform_bf_list ts x h

theorem transform_bf_list (ts : List Transform) (x : List ℝ)
    (h : Transform.domList ts x) :
    Transform.backwardList ts (Transform.forwardList ts x) = x := by
  cases ts with
  | nil => rw [Transform.forwardList, Transform.backwardList]
  | cons t ts =>
      rw [Transform.domList] at h
      rw [Transform.forwardList, Transform.backwardList]
      rw [transform_bf_list ts (Transform.forward t x) h.2]
      exact transform_bf t x h.1

end

mutual

theorem transform_fb (t : Transform) (y : List ℝ) (h : Transform.codom t y) :
    Transform.forward t (Transform.backward t y) = y := by
  cases t with
  | log =>
      rw [Transform.forward, Transform.backward]
      exact map_map_id _ _ y fun a _ => Real.log_exp a
  | logExpM1 =>
      rw [Transform.forward, Transform.backward]
      exact map_map_id _ _ y fun b _ => logexpm1_softplus b
  | logOdds =>
      rw [Transform.forward, Transform.backward]
      exact map_map_id _ _ y fun b _ => logit_invlogit b
  | interval a b =>
      cases a with
      | none =>
          cases b with
          | none =>
              rw [Transform.forward, Transform.backward]
              exact map_map_id _ _ y fun a _ => rfl
          | some b =>
              rw [Transform.forward, Transform.backward]
              exact map_map_id _ _ y fun v _ => interval_fb_right b v
      | some a =>
          cases b with
          | none =>
              rw [Transform.forward, Transform.backward]
              exact map_map_id _ _ y fun v _ => interval_fb_left a v
          | some b =>
              rw [Transform.codom] at h
              rw [Transform.forward, Transform.backward]
              exact map_map_id _ _ y fun v _ => interval_fb_both a b v h
  | ordered =>
      rw [Transform.forward, Transform.backward]
      exact orderedFwd_orderedBwd y
  | sumTo1 =>
      rw [Transform.forward, Transform.backward]
      exact List.dropLast_concat ..
  | stickBreaking d =>
      cases d with
      | true => rw [Transform.forward, Transform.backward]
      | false =>
          rw [Transform.forward, Transform.backward]
          exact stickFwd_stickBwd_eq y
  | circular =>
      rw [Transform.codom] at h
      rw [Transform.forward, Transform.backward]
      have hc : ∀ a ∈ y, arctan2 (Real.sin a) (Real.cos a) = id a :=
        fun a ha => arctan2_sin_cos a (h a ha).1 (h a ha).2
      rw [List.map_congr_left hc, List.map_id]
  | choleskyCovPacked idxs =>
      rw [Transform.forward, Transform.backward]
      exact applyAtFrom_log_exp idxs 0 y
  | chain ts =>
      rw [Transform.codom] at h
      rw [Transform.forward, Transform.backward]
      exact transform_fb_list ts y h

theorem transform_fb_list (ts : List Transform) (y : List ℝ)
    (h : Transform.codomList ts y) :
    Transform.forwardList ts (Transform.backwardList ts y) = y := by
  cases ts with
  | nil => rw [Transform.forwardList, Transform.backwardList]
  | cons t ts =>
      rw [Transform.codomList] at h
      rw [Transform.backwardList, Transform.forwardList]
      rw [transform_fb t (Transform.backwardList ts y) h.2]
      exact transform_fb_list ts y h.1

end

theorem forwardList_eq_foldl (ts : List Transform) (x : List ℝ) :
    Transform.forwardList ts x =
      ts.foldl (fun v s => Transform.forward s v) x := by
  induction ts generalizing x with
  | nil => rw [Transform.forwardList]; rfl
  | cons t ts ih => rw [Transform.forwardList, List.foldl_cons, ih]

theorem backwardList_eq_foldr (ts : List Transform) (y : List ℝ) :
    Transform.backwardList ts y =
      ts.foldr (fun s v => Transform.backward s v) y := by
  induction ts with
  | nil => rw [Transform.backwardList]; rfl
  | cons t ts ih => rw [Transform.backwardList, List.foldr_cons, ih]

/-- C8 (amended): every transform of the library round-trips on its domain
(`backward (forward x) = x`) and on its codomain
(`forward (backward y) = y`), where the codomain is unconstrained for every
transform except `Circular`, whose backward wraps into `(-π, π]` so its
forward-after-backward round trip only holds there; and `Chain` applies its
children in listed order forward and in reverse order backward. -/
theorem transform_round_trip_claim :
    (∀ (t : Transform) (x : List ℝ), Transform.dom t x →
        Transform.backward t (Transform.forward t x) = x) ∧
    (∀ (t : Transform) (y : List ℝ), Transform.codom t y →
        Transform.forward t (Transform.backward t y) = y) ∧
    (∀ (ts : List Transform) (x : List ℝ),
        Transform.forward (Transform.chain ts) x =
          ts.foldl (fun v s => Transform.forward s v) x) ∧
    (∀ (ts : List Transform) (y : List ℝ),
        Transform.backward (Transform.chain ts) y =
          ts.foldr (fun s v => Transform.backward s v) y) :=
  ⟨transform_bf, transform_fb,
    fun ts x => by rw [Transform.forward]; exact forwardList_eq_foldl ts x,
    fun ts y => by rw [Transform.backward]; exact backwardList_eq_foldr ts y⟩

/-- C8 counterexample: `2π` lies in the codomain of `Circular` as the claim
reads it (the whole unconstrained space), yet
`forward (backward [2π]) = [0] ≠ [2π]` — the backward map wraps into
`(-π, π]`, so the claimed round trip fails beyond tolerance (by `2π`). -/
theorem circular_round_trip_counterexample :
    Transform.codomSpec Transform.circular [2 * Real.pi] ∧
    Transform.forward Transform.circular
      (Transform.backward Transform.circular [2 * Real.pi]) = [(0 : ℝ)] ∧
    ([(0 : ℝ)] : List ℝ) ≠ [2 * Real.pi] := by
  refine ⟨trivial, ?_, ?_⟩
  · rw [Transform.forward, Transform.backward]
    have harc : arctan2 0 1 = 0 := by
      unfold arctan2
      norm_num [Complex.arg_one]
    simp [Real.sin_two_pi, Real.cos_two_pi, harc]
  · intro hc
    have h0 : (0 : ℝ) = 2 * Real.pi := by injection hc
    have hpi := Real.pi_pos
    linarith

/-- C8 witness: the `Log` transform at `[2]`: the domain condition holds
and the backward-after-forward round trip returns the input. -/
theorem transform_round_trip_claim_witness :
    Transform.dom Transform.log [(2 : ℝ)] ∧
    Transform.backward Transform.log
      (Transform.forward Transform.log [(2 : ℝ)]) = [(2 : ℝ)] := by
  have hd : Transform.dom Transform.log [(2 : ℝ)] := by
    rw [Transform.dom]
    intro a ha
    rw [List.mem_singleton] at ha
    rw [ha]
    norm_num
  exact ⟨hd, transform_round_trip_claim.1 Transform.log [(2 : ℝ)] hd⟩
